import Mathlib

/-!
Verification of the stream-OCR pipeline (`src/app/withffmpeg.py` and the
supporting modules).  The Python code is shallowly embedded: byte buffers
become `List Nat`, strings become `List Char`, `queue.Queue` becomes an
explicit record with its `put_nowait` / `get_nowait` semantics, and the
numpy / PIL operations used by the pipeline are modelled on nested lists.
-/

/-! ## Python `queue.Queue` model

`queue.Queue(maxsize)` with `maxsize <= 0` is unbounded; `put_nowait`
raises `Full` (here: returns `none`) exactly when `0 < maxsize` and the
queue already holds at least `maxsize` items; `get_nowait` pops the FIFO
front or raises `Empty` (here: returns `none`).
-/

structure PyQueue (α : Type) where
  maxsize : Nat
  items : List α
deriving DecidableEq

def PyQueue.put_nowait {α : Type} (q : PyQueue α) (x : α) : Option (PyQueue α) :=
  if 0 < q.maxsize ∧ q.maxsize ≤ q.items.length then none
  else some ⟨q.maxsize, q.items ++ [x]⟩

def PyQueue.get_nowait {α : Type} (q : PyQueue α) : Option (α × PyQueue α) :=
  match q.items with
  | [] => none
  | x :: rest => some (x, ⟨q.maxsize, rest⟩)

/-- Drop-oldest insertion as written in `_capture_frames` (lines 211-222) and
`_process_frames` (lines 308-317): `put_nowait`; on `Full`, `get_nowait` one
item and retry the `put_nowait`; a `queue.Empty` from that inner `get_nowait`
is swallowed (`pass`), dropping the new item. -/
def putDropOldest {α : Type} (q : PyQueue α) (x : α) : PyQueue α :=
  match q.put_nowait x with
  | some q1 => q1
  | none =>
    match q.get_nowait with
    | some (_, q1) =>
      match q1.put_nowait x with
      | some q2 => q2
      | none => q1
    | none => q

/-- Constructor `FFmpegStreamOCR.__init__` (lines 131-133): the frame queue is
`queue.Queue(maxsize=max_queue_size)`, the result queue is `queue.Queue()`,
i.e. maxsize 0 (unbounded). -/
structure OCRQueues (α β : Type) where
  frame_queue : PyQueue α
  result_queue : PyQueue β
deriving DecidableEq

def initQueues (α β : Type) (max_queue_size : Nat) : OCRQueues α β :=
  ⟨⟨max_queue_size, []⟩, ⟨0, []⟩⟩

/-- The queue operations any reachable pipeline state is built from:
frame puts (capture thread), frame gets (analysis thread), result puts
(analysis thread), result gets (the accessor methods). -/
inductive PipelineOp (α β : Type) where
  | putFrame (x : α)
  | getFrame
  | putResult (y : β)
  | getResult

def applyOp {α β : Type} (s : OCRQueues α β) : PipelineOp α β → OCRQueues α β
  | .putFrame x => ⟨putDropOldest s.frame_queue x, s.result_queue⟩
  | .getFrame =>
    match s.frame_queue.get_nowait with
    | some (_, q1) => ⟨q1, s.result_queue⟩
    | none => s
  | .putResult y => ⟨s.frame_queue, putDropOldest s.result_queue y⟩
  | .getResult =>
    match s.result_queue.get_nowait with
    | some (_, q1) => ⟨s.frame_queue, q1⟩
    | none => s

def runOps {α β : Type} (s : OCRQueues α β) (ops : List (PipelineOp α β)) : OCRQueues α β :=
  ops.foldl applyOp s

/-- Accessor `FFmpegStreamOCR.get_latest_result` (lines 373-378): `get_nowait` on the
result queue, returning `None` on `Empty`.  The function is total (never
blocks); it also returns the updated queue. -/
def get_latest_result {β : Type} (q : PyQueue β) : Option β × PyQueue β :=
  match q.get_nowait with
  | some (y, q1) => (some y, q1)
  | none => (none, q)

/-! ## Region cropper (`ImageCropper`, lines 46-101)

A PIL image is a rectangle of pixels; `size` is `(width, height)`;
`crop (l, t, r, b)` keeps rows `[t, b)` and columns `[l, r)`.  The crop
ratio is a float in the source, modelled as a rational; Python `int()` on a
non-negative float is the floor. -/

structure PILImage where
  rows : List (List Nat)
deriving DecidableEq

def PILImage.width (img : PILImage) : Nat := (img.rows.headD []).length

def PILImage.height (img : PILImage) : Nat := img.rows.length

def PILImage.crop (img : PILImage) (box : Nat × Nat × Nat × Nat) : PILImage :=
  ⟨((img.rows.drop box.2.1).take (box.2.2.2 - box.2.1)).map
      (fun row => (row.drop box.1).take (box.2.2.1 - box.1))⟩

/-- Method `ImageCropper.get_crop_coordinates` (lines 83-101). -/
def get_crop_coordinates (crop_ratio : ℚ) (width height : Nat) : Nat × Nat × Nat × Nat :=
  let crop_width := (⌊(width : ℚ) * crop_ratio⌋).toNat
  let crop_height := (⌊(height : ℚ) * crop_ratio⌋).toNat
  (width - crop_width, 0, width, crop_height)

/-- Method `ImageCropper.crop_top_right` (lines 57-81): recomputes the same
coordinates inline and calls `image.crop`. -/
def crop_top_right (crop_ratio : ℚ) (img : PILImage) : PILImage :=
  let width := img.width
  let height := img.height
  let crop_width := (⌊(width : ℚ) * crop_ratio⌋).toNat
  let crop_height := (⌊(height : ℚ) * crop_ratio⌋).toNat
  img.crop (width - crop_width, 0, width, crop_height)

/-! ## Channel normalization in `_process_frames` (lines 252-279)

`np.array(cropped_image)` yields either a 2-dimensional array (grayscale
PIL image) or a 3-dimensional H x W x C array.  The source stacks a
grayscale plane to three channels, slices RGBA to the first three
channels, skips the frame (`continue`) for any other channel count, and
casts to `uint8` when the dtype differs (`astype(np.uint8)` truncates each
value modulo 256; on an array that is already `uint8` the cast is the
identity, so applying the truncation unconditionally is equivalent). -/

inductive NpArray where
  | dim2 (rows : List (List Nat))
  | dim3 (channels : Nat) (rows : List (List (List Nat)))
deriving DecidableEq

/-- Every pixel of a 3-dimensional array has exactly `channels` samples;
a 2-dimensional array is trivially well formed. -/
def NpArray.wellFormed : NpArray → Prop
  | .dim2 _ => True
  | .dim3 c rows => ∀ row ∈ rows, ∀ px ∈ row, px.length = c

/-- The channel-normalization stage of `_process_frames`: `none` means the
frame is skipped with a warning (`continue`), never reaching the OCR call. -/
def normalizeChannels : NpArray → Option (List (List (List Nat)))
  | .dim2 rows =>
    some (rows.map (fun row => row.map (fun v => [v % 256, v % 256, v % 256])))
  | .dim3 c rows =>
    if c = 4 then some (rows.map (fun row => row.map (fun px => (px.take 3).map (· % 256))))
    else if c = 3 then some (rows.map (fun row => row.map (fun px => px.map (· % 256))))
    else none

/-- The per-frame loop of `_process_frames`, restricted to the stage the
claim is about: each frame is normalized and, if normalization succeeds,
handed to the OCR collaborator; otherwise the loop continues with the next
frame. -/
def processFrames {ρ : Type} (ocr : List (List (List Nat)) → ρ) : List NpArray → List ρ
  | [] => []
  | a :: rest =>
    match normalizeChannels a with
    | some rgb => ocr rgb :: processFrames ocr rest
    | none => processFrames ocr rest

/-! ## Content analyzer (`ContentAnalyzer`, lines 412-576)

Text is a `List Char`.  `_normalize_for_time` applies
`unicodedata.normalize("NFKC", ...)` and then a character-for-character
replacement table.  NFKC is an external library function; it is modelled
here on the character classes this analyzer touches: the full-width forms
block U+FF01..U+FF5E folds to ASCII U+0021..U+007E (this covers the
full-width digits, the full-width colon and the full-width period) and the
ideographic space U+3000 folds to an ASCII space; every other character the
analyzer is concerned with is NFKC-invariant. -/

def nfkcChar (c : Char) : Char :=
  if 0xFF01 ≤ c.toNat ∧ c.toNat ≤ 0xFF5E then Char.ofNat (c.toNat - 0xFEE0)
  else if c.toNat = 0x3000 then ' '
  else c

/-- The replacement table of `_normalize_for_time` (lines 461-467).  The
replacements are applied sequentially by `str.replace`, but since no target
character is also a source character the sequential passes coincide with
one character-wise map. -/
def replChar (c : Char) : Char :=
  if c = 'O' ∨ c = 'o' ∨ c = '〇' ∨ c = '零' then '0'
  else if c = '：' then ':'
  else if c = '。' ∨ c = '．' ∨ c = '·' then '.'
  else c

/-- Method `ContentAnalyzer._normalize_for_time` (lines 453-467). -/
def normalize_for_time (text : List Char) : List Char :=
  (text.map nfkcChar).map replChar

/-- The `\d` character class, on the post-normalization alphabet. -/
def isDig (c : Char) : Bool := '0' ≤ c && c ≤ '9'

def digVal (c : Char) : Nat := c.toNat - '0'.toNat

/-- The separator class of the time regex (line 421): `[\:：\.  ]`, i.e.
colon, full-width colon U+FF1A, period, space (the class contains the
space twice). -/
def isSep (c : Char) : Bool :=
  c = ':' || c = '：' || c = '.' || c = ' '

/-- The `\s` class: Python whitespace (ASCII whitespace and, of the
characters relevant here, the ideographic space). -/
def isPySpace (c : Char) : Bool :=
  c = ' ' || c = '\t' || c = '\n' || c = '\x0d' || c = '\x0b' || c = '\x0c' || c = '　'

/-- Group `(\d{2})(?!\d)`: two digit characters not followed by a third; returns
the value, the second digit character and the rest of the input. -/
def twoDigits : List Char → Option (Nat × Char × List Char)
  | a :: b :: rest =>
    if isDig a && isDig b && !(rest.headD ' ' |> isDig) then
      some (10 * digVal a + digVal b, b, rest)
    else none
  | _ => none

/-- The part of the regex after the minute group: one separator from
`[\:：\.  ]`, then `[\s]?` (greedy, with backtracking to the empty
alternative), then `(\d{2})(?!\d)`. -/
def matchTail : List Char → Option (Nat × Char × List Char)
  | [] => none
  | c :: rest =>
    if isSep c then
      match rest with
      | w :: rest2 =>
        if isPySpace w then
          match twoDigits rest2 with
          | some r => some r
          | none => twoDigits rest
        else twoDigits rest
      | [] => twoDigits rest
    else none

/-- One anchored attempt of the full pattern
`(?<!\d)(\d{1,2})[\:：\.  ][\s]?(\d{2})(?!\d)` at the current position,
`prev` being the character immediately before that position.  The greedy
`\d{1,2}` first tries two digits and backtracks to one. -/
def attemptAt (prev : Option Char) (cs : List Char) : Option (Nat × Nat × Char × List Char) :=
  if (prev.map isDig).getD false then none
  else
    match cs with
    | [] => none
    | d1 :: rest1 =>
      if isDig d1 then
        match rest1 with
        | d2 :: rest2 =>
          if isDig d2 then
            match matchTail rest2 with
            | some (ss, b, rest3) => some (10 * digVal d1 + digVal d2, ss, b, rest3)
            | none =>
              match matchTail rest1 with
              | some (ss, b, rest3) => some (digVal d1, ss, b, rest3)
              | none => none
          else
            match matchTail rest1 with
            | some (ss, b, rest3) => some (digVal d1, ss, b, rest3)
            | none => none
        | [] => none
      else none

/-- Model of `re.finditer` over the normalized text: scan left to right; at each
position attempt the pattern; on success emit the `(MM, SS)` pair and
resume right after the match (the character before the resume position is
the second digit of `SS`); on failure advance one character.  The `fuel`
argument only makes the recursion structural; every attempt consumes at
least one character, so any `fuel` at least the length of the input
computes the scan to completion (`scanTimesF_stable` below). -/
def scanTimesF : Nat → Option Char → List Char → List (Nat × Nat)
  | 0, _, _ => []
  | _ + 1, _, [] => []
  | fuel + 1, prev, c :: rest =>
    match attemptAt prev (c :: rest) with
    | some (mm, ss, b, rest3) => (mm, ss) :: scanTimesF fuel (some b) rest3
    | none => scanTimesF fuel (some c) rest

def scanTimes (prev : Option Char) (cs : List Char) : List (Nat × Nat) :=
  scanTimesF cs.length prev cs

/-- One recognized line (`OCRLine` in `src/ocr.py`): text, confidence in
[0, 1] (a float, modelled as a rational), bounding polygon, line index. -/
structure RecLine where
  line_id : Nat
  text : List Char
  confidence : ℚ
  bbox : List (ℚ × ℚ)
deriving DecidableEq

/-- Format `n` with Python `f"{n:02d}"` (for the 0..99 values produced by
the regex). -/
def fmt2 (n : Nat) : List Char :=
  [Char.ofNat ('0'.toNat + n / 10 % 10), Char.ofNat ('0'.toNat + n % 10)]

/-- One entry of the list built by `extract_all_times` (lines 512-520). -/
structure TimeItem where
  text : List Char
  norm : List Char
  mm : Nat
  ss : Nat
  sec : Nat
  confidence : ℚ
  bbox : List (ℚ × ℚ)
deriving DecidableEq

/-- Method `ContentAnalyzer.extract_all_times` (lines 502-521): normalize each
line, iterate all regex matches, and keep a match exactly when
`0 <= mm <= 99` and `0 <= ss < 60`, recording `sec = mm * 60 + ss`. -/
def extract_all_times (ocr_lines : List RecLine) : List TimeItem :=
  ocr_lines.flatMap (fun line =>
    (scanTimes none (normalize_for_time line.text)).filterMap (fun p =>
      if p.1 ≤ 99 ∧ p.2 < 60 then
        some { text := line.text, norm := fmt2 p.1 ++ [':'] ++ fmt2 p.2,
               mm := p.1, ss := p.2, sec := p.1 * 60 + p.2,
               confidence := line.confidence, bbox := line.bbox }
      else none))

/-- Method `ContentAnalyzer.has_reached_20_min` (lines 523-529). -/
def has_reached_20_min (ocr_lines : List RecLine) : Bool :=
  let times := extract_all_times ocr_lines
  if times.isEmpty then false
  else decide (20 * 60 ≤ (times.map (fun t => t.sec)).foldl Nat.max 0)

/-- Keyword list `ContentAnalyzer.replay_keywords` (lines 432-442). -/
def replay_keywords : List (List Char) :=
  ["播".toList, "重播".toList, "回播".toList, "录播".toList, "重放".toList,
   "REPLAY".toList, "RERUN".toList, "精选".toList, "回看".toList]

/-- Keyword list `ContentAnalyzer.live_keywords` (lines 445-451). -/
def live_keywords : List (List Char) :=
  ["直播".toList, "现场".toList, "LIVE".toList, "实况".toList, "正在播出".toList]

/-- Python substring membership `pat in s`. -/
def containsSub (pat s : List Char) : Bool :=
  match s with
  | [] => pat.isEmpty
  | _ :: rest => pat.isPrefixOf s || containsSub pat rest

/-- Method `ContentAnalyzer.is_replay_indicator` (lines 531-542): any live keyword
excludes the line; otherwise any replay keyword flags it. -/
def is_replay_indicator (text : List Char) : Bool :=
  if live_keywords.any (fun w => containsSub w text) then false
  else replay_keywords.any (fun w => containsSub w text)

/-- Python `str.strip()`: remove leading and trailing whitespace. -/
def pyStrip (s : List Char) : List Char :=
  ((s.dropWhile isPySpace).reverse.dropWhile isPySpace).reverse

/-- One entry of `result["replay_indicators"]` (lines 569-573). -/
structure ReplayItem where
  text : List Char
  confidence : ℚ
  bbox : List (ℚ × ℚ)
deriving DecidableEq

/-- The replay loop of `analyze_texts` (lines 563-574): strip each line,
skip empty ones, append an indicator and set the flag when
`is_replay_indicator` fires. -/
def replayFold (ocr_lines : List RecLine) : List ReplayItem × Bool :=
  ocr_lines.foldl (fun acc line =>
    let text := pyStrip line.text
    if text.isEmpty then acc
    else if is_replay_indicator text then
      (acc.1 ++ [⟨text, line.confidence, line.bbox⟩], true)
    else acc) ([], false)

/-- The dictionary returned by `analyze_texts` (lines 544-576). -/
structure AnalysisOut where
  time_texts : List TimeItem
  replay_indicators : List ReplayItem
  is_replay : Bool
  has_time : Bool
  ge_20_min : Bool
  max_time_sec : Option Nat
deriving DecidableEq

/-- Method `ContentAnalyzer.analyze_texts` (lines 544-576).  Python `max` over the
non-empty list of `sec` values is the fold of `Nat.max` from 0 (all values
are non-negative). -/
def analyze_texts (ocr_lines : List RecLine) : AnalysisOut :=
  let all_times := extract_all_times ocr_lines
  let rep := replayFold ocr_lines
  if all_times.isEmpty then
    { time_texts := [], replay_indicators := rep.1, is_replay := rep.2,
      has_time := false, ge_20_min := false, max_time_sec := none }
  else
    let m := (all_times.map (fun t => t.sec)).foldl Nat.max 0
    { time_texts := all_times, replay_indicators := rep.1, is_replay := rep.2,
      has_time := true, ge_20_min := decide (20 * 60 ≤ m), max_time_sec := some m }

/-! ## Byte-stream demuxer (`_capture_frames`, lines 172-203)

The byte stream is a `List Nat`; the JPEG start marker is `0xFF 0xD8 =
[255, 216]` and the end marker is `0xFF 0xD9 = [255, 217]`.
`bytes.find(pat)` returns the first index of the two-byte pattern
(`none` models `-1`); `bytes.find(pat, k)` is a find on the suffix from
`k` plus the offset `k`. -/

def find2 (a b : Nat) : List Nat → Option Nat
  | [] => none
  | [_] => none
  | x :: y :: rest =>
    if x = a ∧ y = b then some 0 else (find2 a b (y :: rest)).map (· + 1)

/-- One pass of the inner `while True` scanning loop (lines 192-203): find
the first start marker, then the first end marker from two bytes later;
emit the inclusive frame slice `buffer[start_idx : end_idx + 2]` and keep
`buffer[end_idx + 2 :]`; with either marker missing, stop and wait for
more input. -/
def scanStep (buf : List Nat) : Option (List Nat × List Nat) :=
  match find2 255 216 buf with
  | none => none
  | some s =>
    match find2 255 217 (buf.drop (s + 2)) with
    | none => none
    | some e => some ((buf.drop s).take (e + 4), buf.drop (s + e + 4))

/-- The scanning loop run to its fixpoint, returning the emitted frames
and the residual buffer.  As with `scanTimesF`, the `fuel` argument only
makes the recursion structural: each emitted frame removes at least four
bytes from the buffer, so fuel equal to the buffer length always reaches
the fixpoint (`scanAllF_stable`). -/
def scanAllF : Nat → List Nat → List (List Nat) × List Nat
  | 0, buf => ([], buf)
  | fuel + 1, buf =>
    match scanStep buf with
    | none => ([], buf)
    | some (f, rest) =>
      let r := scanAllF fuel rest
      (f :: r.1, r.2)

def scanAll (buf : List Nat) : List (List Nat) × List Nat :=
  scanAllF buf.length buf

/-- Feeding one read chunk to the demuxer (lines 188-203): append the
chunk to the carried buffer, then run the scanning loop to its fixpoint. -/
def feedChunk (st : List (List Nat) × List Nat) (chunk : List Nat) :
    List (List Nat) × List Nat :=
  (st.1 ++ (scanAll (st.2 ++ chunk)).1, (scanAll (st.2 ++ chunk)).2)

/-- The whole read loop (lines 181-203) on a given partition of the stream
into chunks, starting from the empty buffer `buffer = b''`. -/
def processChunks (chunks : List (List Nat)) : List (List Nat) × List Nat :=
  chunks.foldl feedChunk ([], [])

/-- The two-byte pattern `a b` occurs at index `i`. -/
def pairAt (a b : Nat) (l : List Nat) (i : Nat) : Prop :=
  l[i]? = some a ∧ l[i + 1]? = some b

instance pairAt_decidable (a b : Nat) (l : List Nat) (i : Nat) : Decidable (pairAt a b l i) :=
  inferInstanceAs (Decidable (l[i]? = some a ∧ l[i + 1]? = some b))

/-- The two-byte pattern `a b` occurs nowhere in `l`. -/
def pairFree (a b : Nat) (l : List Nat) : Prop :=
  ∀ i, ¬ pairAt a b l i

/-- A well-formed marker-delimited frame: a start marker, a payload that
contains no end marker, and the end marker. -/
def isFrame (f : List Nat) : Prop :=
  ∃ p, f = 255 :: 216 :: (p ++ [255, 217]) ∧ pairFree 255 217 p

/-- The per-line test of the replay loop in `analyze_texts`: the stripped
text is non-empty and `is_replay_indicator` accepts it. -/
def replayLineFlag (l : RecLine) : Bool :=
  !(pyStrip l.text).isEmpty && is_replay_indicator (pyStrip l.text)

def mkReplayItem (l : RecLine) : ReplayItem :=
  ⟨pyStrip l.text, l.confidence, l.bbox⟩

/-! ## Lemmas and claim theorems -/

theorem twoDigits_length {cs : List Char} {r : Nat × Char × List Char}
    (h : twoDigits cs = some r) : r.2.2.length + 2 = cs.length := by
  unfold twoDigits at h
  split at h
  · split at h
    · cases h
      simp
    · cases h
  · cases h

theorem matchTail_length {cs : List Char} {r : Nat × Char × List Char}
    (h : matchTail cs = some r) : r.2.2.length < cs.length := by
  unfold matchTail at h
  split at h
  · cases h
  · split at h
    · split at h
      · split at h
        · split at h
          next r2 heq =>
            cases h
            have := twoDigits_length heq
            simp_all
            omega
          next heq =>
            have := twoDigits_length h
            simp_all
            omega
        · have := twoDigits_length h
          simp_all
          omega
      · have := twoDigits_length h
        simp_all
    · cases h

theorem attemptAt_length {prev : Option Char} {cs : List Char}
    {r : Nat × Nat × Char × List Char}
    (h : attemptAt prev cs = some r) : r.2.2.2.length < cs.length := by
  unfold attemptAt at h
  split at h
  · cases h
  · split at h
    · cases h
    · split at h
      · split at h
        · split at h
          · split at h
            next hmt =>
              cases h
              have := matchTail_length hmt
              simp_all
              omega
            next =>
              split at h
              next hmt2 =>
                cases h
                have := matchTail_length hmt2
                simp_all
                omega
              next => cases h
          · split at h
            next hmt2 =>
              cases h
              have := matchTail_length hmt2
              simp_all
              omega
            next => cases h
        · cases h
      · cases h

theorem scanTimesF_stable : ∀ (fuel fuel2 : Nat) (prev : Option Char) (cs : List Char),
    cs.length ≤ fuel → cs.length ≤ fuel2 →
    scanTimesF fuel prev cs = scanTimesF fuel2 prev cs := by
  intro fuel
  induction fuel with
  | zero =>
    intro fuel2 prev cs h1 h2
    have : cs = [] := List.length_eq_zero.mp (Nat.le_zero.mp h1)
    subst this
    cases fuel2 <;> simp [scanTimesF]
  | succ f ih =>
    intro fuel2 prev cs h1 h2
    cases cs with
    | nil => cases fuel2 <;> simp [scanTimesF]
    | cons c rest =>
      cases fuel2 with
      | zero => simp at h2
      | succ f2 =>
        simp only [scanTimesF]
        cases hm : attemptAt prev (c :: rest) with
        | some r =>
          obtain ⟨mm, ss, b, rest3⟩ := r
          have hlen := attemptAt_length hm
          simp only [List.length_cons] at h1 h2
          simp only [List.length_cons] at hlen
          show (mm, ss) :: scanTimesF f (some b) rest3
            = (mm, ss) :: scanTimesF f2 (some b) rest3
          rw [ih f2 (some b) rest3 (by omega) (by omega)]
        | none =>
          simp only [List.length_cons] at h1 h2
          show scanTimesF f (some c) rest = scanTimesF f2 (some c) rest
          rw [ih f2 (some c) rest (by omega) (by omega)]

theorem scanTimes_eq_scanTimesF {fuel : Nat} {prev : Option Char} {cs : List Char}
    (h : cs.length ≤ fuel) : scanTimes prev cs = scanTimesF fuel prev cs :=
  scanTimesF_stable cs.length fuel prev cs (Nat.le_refl _) h

theorem pairFree_nil {a b : Nat} : pairFree a b [] := by
  intro i hi
  rcases hi with ⟨h1, _⟩
  simp at h1

theorem pairFree_of_cons {a b : Nat} {x : Nat} {l : List Nat}
    (h : pairFree a b (x :: l)) : pairFree a b l := by
  intro i hi
  refine h (i + 1) ⟨?_, ?_⟩
  · simpa [List.getElem?_cons_succ] using hi.1
  · simpa [List.getElem?_cons_succ] using hi.2

theorem find2_le_length {a b : Nat} : ∀ {l : List Nat} {i : Nat},
    find2 a b l = some i → i + 2 ≤ l.length := by
  intro l
  induction l with
  | nil => intro i h; simp [find2] at h
  | cons x t ih =>
    intro i h
    cases t with
    | nil => simp [find2] at h
    | cons y rest =>
      simp only [find2] at h
      split at h
      · cases h
        simp
      · cases hf : find2 a b (y :: rest) with
        | none => rw [hf] at h; cases h
        | some j =>
          rw [hf] at h
          cases h
          have := ih hf
          simp at this ⊢
          omega

theorem find2_append_some {a b : Nat} {c : List Nat} : ∀ {l : List Nat} {i : Nat},
    find2 a b l = some i → find2 a b (l ++ c) = some i := by
  intro l
  induction l with
  | nil => intro i h; simp [find2] at h
  | cons x t ih =>
    intro i h
    cases t with
    | nil => simp [find2] at h
    | cons y rest =>
      simp only [find2] at h
      split at h
      next hxy =>
        cases h
        simp [find2, hxy]
      next hxy =>
        cases hf : find2 a b (y :: rest) with
        | none => rw [hf] at h; cases h
        | some j =>
          rw [hf] at h
          cases h
          have := ih hf
          simp only [List.cons_append] at this ⊢
          simp [find2, hxy, this]

theorem find2_none_of_pairFree {a b : Nat} : ∀ {l : List Nat},
    pairFree a b l → find2 a b l = none := by
  intro l
  induction l with
  | nil => intro _; simp [find2]
  | cons x t ih =>
    intro h
    cases t with
    | nil => simp [find2]
    | cons y rest =>
      have hxy : ¬(x = a ∧ y = b) := by
        intro hc
        exact h 0 ⟨by simp [pairAt, hc.1], by simp [pairAt, hc.2]⟩
      simp only [find2, if_neg hxy]
      rw [ih (pairFree_of_cons h)]
      rfl

theorem find2_append_skip {a b : Nat} (hb : b ≠ 255) :
    ∀ (junk rest : List Nat), pairFree a b junk → rest.head? = some 255 →
    find2 a b (junk ++ rest) = (find2 a b rest).map (· + junk.length) := by
  intro junk
  induction junk with
  | nil =>
    intro rest _ _
    cases h : find2 a b rest <;> simp [h]
  | cons x junk1 ih =>
    intro rest hfree hhead
    cases junk1 with
    | nil =>
      cases rest with
      | nil => simp at hhead
      | cons r0 rest1 =>
        simp only [List.head?_cons, Option.some.injEq] at hhead
        subst hhead
        have hxy : ¬(x = a ∧ (255 : Nat) = b) := by
          rintro ⟨_, hc⟩
          exact hb hc.symm
        simp only [List.nil_append, List.cons_append, find2, if_neg hxy]
        cases h : find2 a b (255 :: rest1) <;> simp [h]
    | cons u junk2 =>
      have hxy : ¬(x = a ∧ u = b) := by
        intro hc
        exact hfree 0 ⟨by simp [pairAt, hc.1], by simp [pairAt, hc.2]⟩
      have step := ih rest (pairFree_of_cons hfree) hhead
      simp only [List.cons_append, find2, if_neg hxy, List.append_eq]
      simp only [List.cons_append, List.append_eq] at step
      rw [step]
      cases h : find2 a b rest <;> simp
      omega

theorem scanStep_frame (junk p rest : List Nat)
    (hjunk : pairFree 255 216 junk) (hp : pairFree 255 217 p) :
    scanStep (junk ++ (255 :: 216 :: (p ++ [255, 217])) ++ rest)
      = some (255 :: 216 :: (p ++ [255, 217]), rest) := by
  have hstart : find2 255 216 (junk ++ (255 :: 216 :: (p ++ [255, 217])) ++ rest)
      = some junk.length := by
    rw [List.append_assoc]
    rw [find2_append_skip (by omega) junk _ hjunk (by simp)]
    simp [find2]
  have hdrop2 : (junk ++ (255 :: 216 :: (p ++ [255, 217])) ++ rest).drop (junk.length + 2)
      = p ++ ([255, 217] ++ rest) := by
    have : junk ++ (255 :: 216 :: (p ++ [255, 217])) ++ rest
        = (junk ++ [255, 216]) ++ (p ++ ([255, 217] ++ rest)) := by
      simp
    rw [this, List.drop_left' (by simp)]
  have hend : find2 255 217 (p ++ ([255, 217] ++ rest)) = some p.length := by
    rw [find2_append_skip (by omega) p _ hp (by simp)]
    simp [find2]
  have hdropS : (junk ++ (255 :: 216 :: (p ++ [255, 217])) ++ rest).drop junk.length
      = (255 :: 216 :: (p ++ [255, 217])) ++ rest := by
    rw [List.append_assoc, List.drop_left' rfl]
  have htake : ((255 :: 216 :: (p ++ [255, 217])) ++ rest).take (p.length + 4)
      = 255 :: 216 :: (p ++ [255, 217]) := by
    rw [List.take_left' (by simp)]
  have hdropE : (junk ++ (255 :: 216 :: (p ++ [255, 217])) ++ rest).drop
      (junk.length + p.length + 4) = rest := by
    have : junk ++ (255 :: 216 :: (p ++ [255, 217])) ++ rest
        = (junk ++ (255 :: 216 :: (p ++ [255, 217]))) ++ rest := by
      simp
    rw [this, List.drop_left' (by simp; omega)]
  simp only [scanStep, hstart, hdrop2, hend, hdropS, htake, hdropE]

theorem scanStep_length {buf f rest : List Nat}
    (h : scanStep buf = some (f, rest)) : rest.length < buf.length := by
  unfold scanStep at h
  split at h
  · cases h
  next s hs =>
    split at h
    · cases h
    next e he =>
      cases h
      have h1 := find2_le_length hs
      have h2 := find2_le_length he
      simp only [List.length_drop] at h2 ⊢
      omega

theorem scanAllF_stable : ∀ (fuel fuel2 : Nat) (buf : List Nat),
    buf.length ≤ fuel → buf.length ≤ fuel2 →
    scanAllF fuel buf = scanAllF fuel2 buf := by
  intro fuel
  induction fuel with
  | zero =>
    intro fuel2 buf h1 h2
    have hbuf : buf = [] := List.length_eq_zero.mp (Nat.le_zero.mp h1)
    subst hbuf
    cases fuel2 with
    | zero => rfl
    | succ f2 => simp [scanAllF, scanStep, find2]
  | succ f ih =>
    intro fuel2 buf h1 h2
    cases fuel2 with
    | zero =>
      have hbuf : buf = [] := List.length_eq_zero.mp (Nat.le_zero.mp h2)
      subst hbuf
      simp [scanAllF, scanStep, find2]
    | succ f2 =>
      simp only [scanAllF]
      cases hs : scanStep buf with
      | none => rfl
      | some pr =>
        obtain ⟨fr, rest⟩ := pr
        have hlen := scanStep_length hs
        show (fr :: (scanAllF f rest).1, (scanAllF f rest).2)
          = (fr :: (scanAllF f2 rest).1, (scanAllF f2 rest).2)
        rw [ih f2 rest (by omega) (by omega)]

theorem scanAll_eq (buf : List Nat) : scanAll buf =
    match scanStep buf with
    | none => ([], buf)
    | some (f, rest) => (f :: (scanAll rest).1, (scanAll rest).2) := by
  unfold scanAll
  cases hl : buf.length with
  | zero =>
    have hbuf : buf = [] := List.length_eq_zero.mp hl
    subst hbuf
    simp [scanAllF, scanStep, find2]
  | succ n =>
    simp only [scanAllF]
    cases hs : scanStep buf with
    | none => rfl
    | some pr =>
      obtain ⟨fr, rest⟩ := pr
      have := scanStep_length hs
      show (fr :: (scanAllF n rest).1, (scanAllF n rest).2)
        = (fr :: (scanAll rest).1, (scanAll rest).2)
      unfold scanAll
      rw [scanAllF_stable n rest.length rest (by omega) (by omega)]

theorem scanStep_append {buf c f rest : List Nat}
    (h : scanStep buf = some (f, rest)) :
    scanStep (buf ++ c) = some (f, rest ++ c) := by
  unfold scanStep at h
  split at h
  · cases h
  next s hs =>
    split at h
    · cases h
    next e he =>
      cases h
      have h1 := find2_le_length hs
      have h2 := find2_le_length he
      simp only [List.length_drop] at h2
      have hs2 : find2 255 216 (buf ++ c) = some s := find2_append_some hs
      have hdrop : (buf ++ c).drop (s + 2) = buf.drop (s + 2) ++ c :=
        List.drop_append_of_le_length (by omega)
      have he2 : find2 255 217 ((buf ++ c).drop (s + 2)) = some e := by
        rw [hdrop]
        exact find2_append_some he
      have hdropS : (buf ++ c).drop s = buf.drop s ++ c :=
        List.drop_append_of_le_length (by omega)
      have htake : ((buf ++ c).drop s).take (e + 4) = (buf.drop s).take (e + 4) := by
        rw [hdropS]
        exact List.take_append_of_le_length (by simp; omega)
      have hdropE : (buf ++ c).drop (s + e + 4) = buf.drop (s + e + 4) ++ c :=
        List.drop_append_of_le_length (by omega)
      simp only [scanStep, hs2, he2, htake, hdropE]

theorem scanAll_append_bounded : ∀ (n : Nat) (b c : List Nat), b.length ≤ n →
    scanAll (b ++ c) = ((scanAll b).1 ++ (scanAll ((scanAll b).2 ++ c)).1,
                        (scanAll ((scanAll b).2 ++ c)).2) := by
  intro n
  induction n with
  | zero =>
    intro b c hb
    have : b = [] := List.length_eq_zero.mp (Nat.le_zero.mp hb)
    subst this
    have h0 : scanAll [] = ([], []) := by rw [scanAll_eq]; rfl
    simp [h0]
  | succ n ih =>
    intro b c hb
    cases hs : scanStep b with
    | none =>
      have h1 : scanAll b = ([], b) := by rw [scanAll_eq, hs]
      rw [h1]
      simp
    | some pr =>
      obtain ⟨f, rest⟩ := pr
      have hlen := scanStep_length hs
      have h1 : scanAll b = (f :: (scanAll rest).1, (scanAll rest).2) := by
        rw [scanAll_eq, hs]
      have h2 : scanAll (b ++ c)
          = (f :: (scanAll (rest ++ c)).1, (scanAll (rest ++ c)).2) := by
        rw [scanAll_eq, scanStep_append hs]
      have ihr := ih rest c (by omega)
      rw [h2, ihr, h1]
      simp

theorem scanAll_append (b c : List Nat) :
    scanAll (b ++ c) = ((scanAll b).1 ++ (scanAll ((scanAll b).2 ++ c)).1,
                        (scanAll ((scanAll b).2 ++ c)).2) :=
  scanAll_append_bounded b.length b c (Nat.le_refl _)

/-- The residual left by the scanning loop cannot itself yield another
frame: the loop only stops when a marker is missing. -/
theorem scanStep_scanAll_residual : ∀ (n : Nat) (buf : List Nat), buf.length ≤ n →
    scanStep (scanAll buf).2 = none := by
  intro n
  induction n with
  | zero =>
    intro buf hb
    have : buf = [] := List.length_eq_zero.mp (Nat.le_zero.mp hb)
    subst this
    have h0 : scanAll [] = ([], []) := by rw [scanAll_eq]; rfl
    rw [h0]
    rfl
  | succ n ih =>
    intro buf hb
    cases hs : scanStep buf with
    | none =>
      have h1 : scanAll buf = ([], buf) := by rw [scanAll_eq, hs]
      rw [h1]
      exact hs
    | some pr =>
      obtain ⟨f, rest⟩ := pr
      have hlen := scanStep_length hs
      have h1 : scanAll buf = (f :: (scanAll rest).1, (scanAll rest).2) := by
        rw [scanAll_eq, hs]
      rw [h1]
      exact ih rest (by omega)

/-- Scanning junk followed by well-formed frames emits exactly those
frames; the residual is the junk when no frame followed it, empty
otherwise. -/
theorem scanAll_stream : ∀ (frames : List (List Nat)) (junk : List Nat),
    pairFree 255 216 junk → (∀ f ∈ frames, isFrame f) →
    scanAll (junk ++ frames.flatten)
      = (frames, if frames.isEmpty then junk else []) := by
  intro frames
  induction frames with
  | nil =>
    intro junk hjunk _
    have hs : scanStep junk = none := by
      unfold scanStep
      rw [find2_none_of_pairFree hjunk]
    simp only [List.flatten_nil, List.append_nil, List.isEmpty_nil, if_pos]
    rw [scanAll_eq, hs]
  | cons f fs ih =>
    intro junk hjunk hframes
    obtain ⟨p, hfp, hp⟩ := hframes f (by simp)
    have hrest : ∀ g ∈ fs, isFrame g := fun g hg => hframes g (by simp [hg])
    have hstep : scanStep (junk ++ f ++ fs.flatten) = some (f, fs.flatten) := by
      rw [hfp]
      exact scanStep_frame junk p fs.flatten hjunk hp
    have hjoin : junk ++ (f :: fs).flatten = junk ++ f ++ fs.flatten := by
      simp
    have ihfs := ih [] pairFree_nil hrest
    simp only [List.nil_append] at ihfs
    rw [hjoin, scanAll_eq, hstep]
    show (f :: (scanAll fs.flatten).1, (scanAll fs.flatten).2)
      = (f :: fs, if (f :: fs).isEmpty = true then junk else [])
    rw [ihfs]
    by_cases hfs : fs.isEmpty <;> simp [hfs]

theorem foldl_feedChunk : ∀ (chunks : List (List Nat)) (acc : List (List Nat)) (buf : List Nat),
    scanStep buf = none →
    chunks.foldl feedChunk (acc, buf)
      = (acc ++ (scanAll (buf ++ chunks.flatten)).1,
         (scanAll (buf ++ chunks.flatten)).2) := by
  intro chunks
  induction chunks with
  | nil =>
    intro acc buf hres
    have h1 : scanAll buf = ([], buf) := by rw [scanAll_eq, hres]
    simp [h1]
  | cons ch chs ih =>
    intro acc buf hres
    simp only [List.foldl_cons]
    have hres2 : scanStep (scanAll (buf ++ ch)).2 = none :=
      scanStep_scanAll_residual (buf ++ ch).length _ (Nat.le_refl _)
    have hfeed : feedChunk (acc, buf) ch
        = (acc ++ (scanAll (buf ++ ch)).1, (scanAll (buf ++ ch)).2) := rfl
    rw [hfeed, ih _ _ hres2]
    have happ := scanAll_append (buf ++ ch) chs.flatten
    have hassoc : buf ++ (ch :: chs).flatten = (buf ++ ch) ++ chs.flatten := by
      simp
    rw [hassoc, happ]
    simp

/-- Checking `pairFree` only needs looking below the length bound (beyond it the
lookup is `none`), which makes it decidable on concrete lists. -/
theorem pairFree_of_lt {a b : Nat} {l : List Nat}
    (h : ∀ i < l.length, ¬ pairAt a b l i) : pairFree a b l := by
  intro i hi
  by_cases hlen : i < l.length
  · exact h i hlen hi
  · have hnone : l[i]? = none := by
      rw [List.getElem?_eq_none]
      omega
    rw [pairAt, hnone] at hi
    exact absurd hi.1 (by simp)

theorem get_nowait_spec {α : Type} (q : PyQueue α) (y : α) (q1 : PyQueue α)
    (h : q.get_nowait = some (y, q1)) :
    q.items = y :: q1.items ∧ q1.maxsize = q.maxsize := by
  unfold PyQueue.get_nowait at h
  split at h
  · cases h
  next x rest heq =>
    cases h
    exact ⟨heq, rfl⟩

theorem putDropOldest_not_full {α : Type} (q : PyQueue α) (x : α)
    (h : q.items.length < q.maxsize ∨ q.maxsize = 0) :
    putDropOldest q x = ⟨q.maxsize, q.items ++ [x]⟩ := by
  have hcond : ¬(0 < q.maxsize ∧ q.maxsize ≤ q.items.length) := by omega
  unfold putDropOldest PyQueue.put_nowait
  rw [if_neg hcond]

theorem putDropOldest_full {α : Type} (q : PyQueue α) (x : α)
    (hm : 1 ≤ q.maxsize) (hlen : q.items.length = q.maxsize) :
    putDropOldest q x = ⟨q.maxsize, q.items.drop 1 ++ [x]⟩ := by
  have hcond : 0 < q.maxsize ∧ q.maxsize ≤ q.items.length := by omega
  obtain ⟨ms, items⟩ := q
  simp only at hcond hlen hm
  cases items with
  | nil => simp at hlen; omega
  | cons i tl =>
    have hcond2 : ¬(0 < ms ∧ ms ≤ tl.length) := by
      simp at hlen
      omega
    unfold putDropOldest PyQueue.put_nowait PyQueue.get_nowait
    simp only [if_pos hcond, if_neg hcond2, List.drop_one, List.tail_cons]

theorem putDropOldest_length_le {α : Type} (q : PyQueue α) (x : α)
    (hm : 1 ≤ q.maxsize) (h : q.items.length ≤ q.maxsize) :
    (putDropOldest q x).items.length ≤ q.maxsize
      ∧ (putDropOldest q x).maxsize = q.maxsize := by
  rcases Nat.lt_or_ge q.items.length q.maxsize with hlt | hge
  · rw [putDropOldest_not_full q x (Or.inl hlt)]
    simp
    omega
  · have heq : q.items.length = q.maxsize := Nat.le_antisymm h hge
    rw [putDropOldest_full q x hm heq]
    simp
    omega

theorem frame_queue_invariant {α β : Type} (c : Nat) (hc : 1 ≤ c) :
    ∀ (ops : List (PipelineOp α β)) (s : OCRQueues α β),
    s.frame_queue.maxsize = c → s.frame_queue.items.length ≤ c →
    (runOps s ops).frame_queue.maxsize = c
      ∧ (runOps s ops).frame_queue.items.length ≤ c := by
  intro ops
  induction ops with
  | nil => intro s hm hl; exact ⟨hm, hl⟩
  | cons op rest ih =>
    intro s hm hl
    have hstep : (applyOp s op).frame_queue.maxsize = c
        ∧ (applyOp s op).frame_queue.items.length ≤ c := by
      cases op with
      | putFrame x =>
        have h3 := putDropOldest_length_le s.frame_queue x (by omega) (by omega)
        constructor
        · show (putDropOldest s.frame_queue x).maxsize = c
          omega
        · show (putDropOldest s.frame_queue x).items.length ≤ c
          omega
      | getFrame =>
        simp only [applyOp]
        cases hg : s.frame_queue.get_nowait with
        | none => exact ⟨hm, hl⟩
        | some pr =>
          obtain ⟨y, q1⟩ := pr
          obtain ⟨hq1, hq2⟩ := get_nowait_spec s.frame_queue y q1 hg
          constructor
          · show q1.maxsize = c
            omega
          · show q1.items.length ≤ c
            have : s.frame_queue.items.length = q1.items.length + 1 := by
              rw [hq1]
              simp
            omega
      | putResult y => exact ⟨hm, hl⟩
      | getResult =>
        simp only [applyOp]
        cases s.result_queue.get_nowait with
        | none => exact ⟨hm, hl⟩
        | some pr => exact ⟨hm, hl⟩
    have := ih (applyOp s op) hstep.1 hstep.2
    simpa [runOps, List.foldl_cons] using this

theorem foldl_putDropOldest {α : Type} (c : Nat) (hc : 1 ≤ c) :
    ∀ (xs l : List α), l.length ≤ c →
    (xs.foldl putDropOldest ⟨c, l⟩).items = (l ++ xs).drop (l.length + xs.length - c) := by
  intro xs
  induction xs with
  | nil =>
    intro l hl
    have h0 : l.length - c = 0 := by omega
    simp [h0]
  | cons x xs ih =>
    intro l hl
    simp only [List.foldl_cons]
    rcases Nat.lt_or_ge l.length c with hlt | hge
    · rw [putDropOldest_not_full ⟨c, l⟩ x (Or.inl hlt)]
      have hb : (l ++ [x]).length ≤ c := by
        simp only [List.length_append, List.length_cons, List.length_nil]
        omega
      rw [ih (l ++ [x]) hb]
      have hlen : (l ++ [x]).length + xs.length - c = l.length + (x :: xs).length - c := by
        simp only [List.length_append, List.length_cons, List.length_nil]
        omega
      rw [hlen, List.append_assoc]
      simp
    · have heq : l.length = c := Nat.le_antisymm hl hge
      rcases l with _ | ⟨y, tl⟩
      · simp at heq
        omega
      · rw [putDropOldest_full ⟨c, y :: tl⟩ x hc heq]
        simp only [List.drop_one, List.tail_cons]
        simp only [List.length_cons] at heq
        have hb : (tl ++ [x]).length ≤ c := by
          simp only [List.length_append, List.length_cons, List.length_nil]
          omega
        rw [ih (tl ++ [x]) hb]
        have e1 : (tl ++ [x]).length + xs.length - c = xs.length := by
          simp only [List.length_append, List.length_cons, List.length_nil]
          omega
        have e2 : (y :: tl).length + (x :: xs).length - c = xs.length + 1 := by
          simp only [List.length_cons]
          omega
        rw [e1, e2]
        have hlists : (tl ++ [x]) ++ xs = tl ++ x :: xs := by
          simp
        rw [hlists]
        rw [show (y :: tl) ++ x :: xs = y :: (tl ++ x :: xs) from rfl]
        rw [List.drop_succ_cons]

theorem le_foldl_max : ∀ (l : List Nat) (a : Nat), a ≤ l.foldl Nat.max a := by
  intro l
  induction l with
  | nil => intro a; simp
  | cons y t ih =>
    intro a
    simp only [List.foldl_cons]
    exact Nat.le_trans (Nat.le_max_left a y) (ih (Nat.max a y))

theorem foldl_max_le : ∀ (l : List Nat) (a x : Nat), x ∈ l → x ≤ l.foldl Nat.max a := by
  intro l
  induction l with
  | nil => intro a x hx; simp at hx
  | cons y t ih =>
    intro a x hx
    simp only [List.foldl_cons]
    rcases List.mem_cons.mp hx with rfl | hx2
    · exact Nat.le_trans (Nat.le_max_right a x) (le_foldl_max t (Nat.max a x))
    · exact ih (Nat.max a y) x hx2

theorem foldl_max_mem : ∀ (l : List Nat) (a : Nat),
    l.foldl Nat.max a ∈ l ∨ l.foldl Nat.max a = a := by
  intro l
  induction l with
  | nil => intro a; right; rfl
  | cons y t ih =>
    intro a
    simp only [List.foldl_cons]
    rcases ih (Nat.max a y) with h | h
    · left; exact List.mem_cons_of_mem y h
    · rcases Nat.le_total a y with hay | hya
      · left
        have hy : a.max y = y := Nat.max_eq_right hay
        rw [h, hy]
        exact List.mem_cons_self y t
      · right
        have hy : a.max y = a := Nat.max_eq_left hya
        rw [h, hy]

theorem replayFold_eq : ∀ (ocr_lines : List RecLine) (acc : List ReplayItem × Bool),
    ocr_lines.foldl (fun acc line =>
      let text := pyStrip line.text
      if text.isEmpty then acc
      else if is_replay_indicator text then
        (acc.1 ++ [⟨text, line.confidence, line.bbox⟩], true)
      else acc) acc
    = (acc.1 ++ (ocr_lines.filter replayLineFlag).map mkReplayItem,
       acc.2 || ocr_lines.any replayLineFlag) := by
  intro ocr_lines
  induction ocr_lines with
  | nil => intro acc; simp
  | cons l t ih =>
    intro acc
    simp only [List.foldl_cons]
    by_cases he : (pyStrip l.text).isEmpty
    · have hflag : replayLineFlag l = false := by
        simp [replayLineFlag, he]
      rw [if_pos he, ih acc]
      simp [List.filter_cons, List.any_cons, hflag]
    · by_cases hr : is_replay_indicator (pyStrip l.text)
      · have hflag : replayLineFlag l = true := by
          simp [replayLineFlag, he, hr]
        rw [if_neg he, if_pos hr, ih _]
        simp [List.filter_cons, List.any_cons, hflag, mkReplayItem]
      · have hflag : replayLineFlag l = false := by
          simp [replayLineFlag, he, hr]
        rw [if_neg he, if_neg hr, ih acc]
        simp [List.filter_cons, List.any_cons, hflag]

theorem replayFold_spec (ocr_lines : List RecLine) :
    replayFold ocr_lines
      = ((ocr_lines.filter replayLineFlag).map mkReplayItem,
         ocr_lines.any replayLineFlag) := by
  unfold replayFold
  rw [replayFold_eq]
  simp

/-- Membership characterization of `extract_all_times` on a single line. -/
theorem extract_single_iff (line : RecLine) (mm ss : Nat) :
    (∃ t ∈ extract_all_times [line], t.mm = mm ∧ t.ss = ss ∧ t.sec = mm * 60 + ss)
      ↔ ((mm, ss) ∈ scanTimes none (normalize_for_time line.text)
          ∧ mm ≤ 99 ∧ ss ≤ 59) := by
  unfold extract_all_times
  simp only [List.flatMap_cons, List.flatMap_nil, List.append_nil]
  constructor
  · rintro ⟨t, ht, hmm, hss, hsec⟩
    rcases List.mem_filterMap.mp ht with ⟨p, hp, hf⟩
    split at hf
    next hcond =>
      cases hf
      simp only at hmm hss
      subst hmm
      subst hss
      exact ⟨hp, hcond.1, by omega⟩
    next => cases hf
  · rintro ⟨hp, hmm, hss⟩
    refine ⟨{ text := line.text, norm := fmt2 mm ++ [':'] ++ fmt2 ss,
              mm := mm, ss := ss, sec := mm * 60 + ss,
              confidence := line.confidence, bbox := line.bbox }, ?_, rfl, rfl, rfl⟩
    apply List.mem_filterMap.mpr
    refine ⟨(mm, ss), hp, ?_⟩
    rw [if_pos ⟨hmm, by omega⟩]

/-- Every accepted entry carries in-range fields and the seconds formula. -/
theorem extract_all_times_bounds (ocr_lines : List RecLine) :
    ∀ t ∈ extract_all_times ocr_lines,
      t.mm ≤ 99 ∧ t.ss ≤ 59 ∧ t.sec = t.mm * 60 + t.ss ∧ t.sec ≤ 5999 := by
  intro t ht
  unfold extract_all_times at ht
  rcases List.mem_flatMap.mp ht with ⟨line, _, hline⟩
  rcases List.mem_filterMap.mp hline with ⟨p, _, hf⟩
  split at hf
  next hcond =>
    cases hf
    refine ⟨hcond.1, ?_, rfl, ?_⟩
    · show p.2 ≤ 59
      omega
    · show p.1 * 60 + p.2 ≤ 5999
      omega
  next => cases hf

theorem analyze_texts_empty {L : List RecLine} (h : extract_all_times L = []) :
    analyze_texts L = { time_texts := [],
                        replay_indicators := (replayFold L).1,
                        is_replay := (replayFold L).2,
                        has_time := false,
                        ge_20_min := false,
                        max_time_sec := none } := by
  unfold analyze_texts
  rw [if_pos (List.isEmpty_iff.mpr h)]

theorem analyze_texts_nonempty {L : List RecLine} (h : extract_all_times L ≠ []) :
    analyze_texts L = { time_texts := extract_all_times L,
                        replay_indicators := (replayFold L).1,
                        is_replay := (replayFold L).2,
                        has_time := true,
                        ge_20_min := decide (20 * 60 ≤
                          ((extract_all_times L).map (fun t => t.sec)).foldl Nat.max 0),
                        max_time_sec := some
                          (((extract_all_times L).map (fun t => t.sec)).foldl Nat.max 0) } := by
  unfold analyze_texts
  rw [if_neg (by rw [List.isEmpty_iff]; exact h)]

theorem foldlmax_sec (ts : List TimeItem) (hne : ts ≠ []) :
    (∀ u ∈ ts, u.sec ≤ (ts.map (fun v => v.sec)).foldl Nat.max 0)
      ∧ ∃ t ∈ ts, t.sec = (ts.map (fun v => v.sec)).foldl Nat.max 0 := by
  constructor
  · intro u hu
    exact foldl_max_le _ 0 _ (List.mem_map_of_mem _ hu)
  · rcases foldl_max_mem (ts.map fun v => v.sec) 0 with hm | hm
    · rcases List.mem_map.mp hm with ⟨t, ht, hsec⟩
      exact ⟨t, ht, hsec⟩
    · rcases List.exists_mem_of_ne_nil ts hne with ⟨t0, ht0⟩
      refine ⟨t0, ht0, ?_⟩
      have h1 := foldl_max_le (ts.map fun v => v.sec) 0 t0.sec (List.mem_map_of_mem _ ht0)
      omega

/-- C1 (counterexample): the claim says the Frame Queue AND the Result
Queue each hold at most `max_queue_size` elements in every reachable
pipeline state.  With `max_queue_size = 1`, two result insertions — the
very operation `_process_frames` performs — reach a state whose Result
Queue holds 2 elements, because `__init__` creates `result_queue` as
`queue.Queue()` with no bound. -/
theorem claim1_result_queue_unbounded_cex :
    (runOps (initQueues Nat Nat 1)
        [.putResult 0, .putResult 1]).result_queue.items.length = 2
      ∧ ¬((runOps (initQueues Nat Nat 1)
        [.putResult 0, .putResult 1]).result_queue.items.length ≤ 1) := by
  decide

/-- C1 (amended): in every reachable state the Frame Queue holds at most
`max_queue_size` elements, and the drop-oldest insertion into the full
Frame Queue evicts exactly the one oldest element before admitting the new
one; the Result Queue however is created without a size bound, so
insertion into it never evicts and simply appends. -/
theorem claim1_queue_bounds {α β : Type} (c : Nat) (hc : 1 ≤ c) :
    (∀ ops : List (PipelineOp α β),
      (runOps (initQueues α β c) ops).frame_queue.items.length ≤ c) ∧
    (∀ (q : PyQueue α) (x : α), q.maxsize = c → q.items.length = c →
      (putDropOldest q x).items = q.items.drop 1 ++ [x]) ∧
    (∀ (r : PyQueue β) (y : β), r.maxsize = 0 →
      (putDropOldest r y).items = r.items ++ [y]) := by
  refine ⟨?_, ?_, ?_⟩
  · intro ops
    exact (frame_queue_invariant c hc ops (initQueues α β c) rfl
      (by simp [initQueues])).2
  · intro q x hm hl
    rw [putDropOldest_full q x (by omega) (by omega)]
  · intro r y hr
    rw [putDropOldest_not_full r y (Or.inr hr)]

theorem claim1_queue_bounds_witness :
    (runOps (initQueues Nat Nat 1) [.putFrame 5, .putFrame 6]).frame_queue.items.length ≤ 1
      ∧ (putDropOldest (⟨1, [5]⟩ : PyQueue Nat) 6).items = [5].drop 1 ++ [6]
      ∧ (putDropOldest (⟨0, [7]⟩ : PyQueue Nat) 8).items = [7] ++ [8] :=
  ⟨(@claim1_queue_bounds Nat Nat 1 (by decide)).1 [.putFrame 5, .putFrame 6],
   (@claim1_queue_bounds Nat Nat 1 (by decide)).2.1 ⟨1, [5]⟩ 6 rfl rfl,
   (@claim1_queue_bounds Nat Nat 1 (by decide)).2.2 ⟨0, [7]⟩ 8 rfl⟩

/-- C2 (counterexample): the claim says `get_latest_result()` pops the
most recently available (newest) result.  It pops the FIFO front, the
OLDEST result: with results 10 then 20 queued, it returns 10 while the
newest queued result is 20. -/
theorem claim2_latest_result_cex :
    (get_latest_result (putDropOldest (putDropOldest
        (initQueues Nat Nat 10).result_queue 10) 20)).1 = some 10
      ∧ (putDropOldest (putDropOldest
        (initQueues Nat Nat 10).result_queue 10) 20).items.getLast? = some 20
      ∧ (get_latest_result (putDropOldest (putDropOldest
        (initQueues Nat Nat 10).result_queue 10) 20)).1 ≠ some 20 := by
  decide

/-- C2 (amended): `get_latest_result` is a non-blocking (total) pop of the
oldest item — the FIFO front — of the Result Queue, returning `None`
(`none`) when the queue is empty (the head of an empty item list is
`none`), and leaving the remaining items in place. -/
theorem claim2_latest_result_fifo {β : Type} (q : PyQueue β) :
    (get_latest_result q).1 = q.items.head?
      ∧ (get_latest_result q).2.items = q.items.tail
      ∧ (get_latest_result q).2.maxsize = q.maxsize := by
  obtain ⟨ms, items⟩ := q
  cases items <;> simp [get_latest_result, PyQueue.get_nowait]

/-- C7: pushing `c + k` items (`c ≥ 1`, `k > 0`) through the drop-oldest
insertion into an initially empty bounded queue of capacity `c` leaves
exactly the last `c` pushed items, in their original (oldest-first)
order. -/
theorem claim7_queue_overflow {α : Type} (c k : Nat) (xs : List α)
    (hc : 1 ≤ c) (hk : 1 ≤ k) (hlen : xs.length = c + k) :
    (xs.foldl putDropOldest ⟨c, []⟩).items = xs.drop k := by
  rw [foldl_putDropOldest c hc xs [] (by simp)]
  simp only [List.nil_append, List.length_nil, Nat.zero_add]
  congr 1
  omega

theorem claim7_queue_overflow_witness :
    (([10, 20, 30] : List Nat).foldl putDropOldest ⟨2, []⟩).items = [10, 20, 30].drop 1 :=
  claim7_queue_overflow 2 1 [10, 20, 30] (by decide) (by decide) (by decide)

/-- C9: for image dimensions `W, H ≥ 1` and crop ratio `r ∈ (0, 1]`,
`get_crop_coordinates W H` returns exactly
`(W - ⌊W * r⌋, 0, W, ⌊H * r⌋)`, and `crop_top_right` returns the sub-image
of exactly the rectangle `get_crop_coordinates` describes for the image's
own dimensions. -/
theorem claim9_crop_geometry (r : ℚ) (W H : Nat) (img : PILImage)
    (h0 : 0 < r) (h1 : r ≤ 1) (hW1 : 1 ≤ W) (hH1 : 1 ≤ H)
    (hW : img.width = W) (hH : img.height = H) :
    get_crop_coordinates r W H
        = (W - (⌊(W : ℚ) * r⌋).toNat, 0, W, (⌊(H : ℚ) * r⌋).toNat)
      ∧ crop_top_right r img = img.crop (get_crop_coordinates r W H) := by
  subst hW
  subst hH
  exact ⟨rfl, rfl⟩

theorem claim9_crop_geometry_witness :
    get_crop_coordinates (1/2 : ℚ) 4 2
        = (4 - (⌊(4 : ℚ) * (1/2 : ℚ)⌋).toNat, 0, 4, (⌊(2 : ℚ) * (1/2 : ℚ)⌋).toNat)
      ∧ crop_top_right (1/2 : ℚ) ⟨[[1, 2, 3, 4], [5, 6, 7, 8]]⟩
        = PILImage.crop ⟨[[1, 2, 3, 4], [5, 6, 7, 8]]⟩ (get_crop_coordinates (1/2 : ℚ) 4 2) :=
  claim9_crop_geometry (1/2) 4 2 ⟨[[1, 2, 3, 4], [5, 6, 7, 8]]⟩
    (by norm_num) (by norm_num) (by norm_num) (by norm_num) rfl rfl

/-- C8: grayscale (2-dimensional), 3-channel and 4-channel (RGBA) pixel
buffers are normalized to a canonical 3-channel representation whose
samples are all 8-bit (below 256) before the OCR call; any other channel
count is a recoverable per-frame error: normalization yields `none`, the
frame is skipped without the OCR collaborator ever being applied, and the
loop continues with the following frames. -/
theorem claim8_channel_normalization :
    (∀ rows : List (List Nat), ∃ rgb, normalizeChannels (.dim2 rows) = some rgb
        ∧ ∀ row ∈ rgb, ∀ px ∈ row, px.length = 3 ∧ ∀ v ∈ px, v < 256) ∧
    (∀ rows : List (List (List Nat)), (∀ row ∈ rows, ∀ px ∈ row, px.length = 3) →
        ∃ rgb, normalizeChannels (.dim3 3 rows) = some rgb
        ∧ ∀ row ∈ rgb, ∀ px ∈ row, px.length = 3 ∧ ∀ v ∈ px, v < 256) ∧
    (∀ rows : List (List (List Nat)), (∀ row ∈ rows, ∀ px ∈ row, px.length = 4) →
        ∃ rgb, normalizeChannels (.dim3 4 rows) = some rgb
        ∧ ∀ row ∈ rgb, ∀ px ∈ row, px.length = 3 ∧ ∀ v ∈ px, v < 256) ∧
    (∀ (ch : Nat) (rows : List (List (List Nat))), ch ≠ 3 → ch ≠ 4 →
        normalizeChannels (.dim3 ch rows) = none) ∧
    (∀ (ρ : Type) (ocr : List (List (List Nat)) → ρ) (a : NpArray)
        (rest : List NpArray), normalizeChannels a = none →
        processFrames ocr (a :: rest) = processFrames ocr rest) := by
  refine ⟨?_, ?_, ?_, ?_, ?_⟩
  · intro rows
    refine ⟨_, rfl, ?_⟩
    intro row hrow px hpx
    rcases List.mem_map.mp hrow with ⟨row0, _, rfl⟩
    rcases List.mem_map.mp hpx with ⟨v, _, rfl⟩
    refine ⟨rfl, ?_⟩
    intro w hw
    simp only [List.mem_cons, List.not_mem_nil, or_false] at hw
    rcases hw with rfl | rfl | rfl <;> omega
  · intro rows hlen
    refine ⟨_, rfl, ?_⟩
    intro row hrow px hpx
    rcases List.mem_map.mp hrow with ⟨row0, hrow0, rfl⟩
    rcases List.mem_map.mp hpx with ⟨px0, hpx0, rfl⟩
    constructor
    · rw [List.length_map]
      exact hlen row0 hrow0 px0 hpx0
    · intro w hw
      rcases List.mem_map.mp hw with ⟨v, _, rfl⟩
      omega
  · intro rows hlen
    refine ⟨_, rfl, ?_⟩
    intro row hrow px hpx
    rcases List.mem_map.mp hrow with ⟨row0, hrow0, rfl⟩
    rcases List.mem_map.mp hpx with ⟨px0, hpx0, rfl⟩
    constructor
    · rw [List.length_map, List.length_take, hlen row0 hrow0 px0 hpx0]
      decide
    · intro w hw
      rcases List.mem_map.mp hw with ⟨v, _, rfl⟩
      omega
  · intro ch rows h3 h4
    simp [normalizeChannels, h3, h4]
  · intro ρ ocr a rest h
    show (match normalizeChannels a with
          | some rgb => ocr rgb :: processFrames ocr rest
          | none => processFrames ocr rest) = processFrames ocr rest
    rw [h]

theorem claim8_channel_normalization_witness :
    (∃ rgb, normalizeChannels (.dim2 [[300]]) = some rgb
        ∧ ∀ row ∈ rgb, ∀ px ∈ row, px.length = 3 ∧ ∀ v ∈ px, v < 256)
      ∧ normalizeChannels (.dim3 2 [[[1, 2]]]) = none
      ∧ processFrames (fun rgb => rgb) [NpArray.dim3 2 [[[1, 2]]]] = [] :=
  ⟨claim8_channel_normalization.1 [[300]],
   claim8_channel_normalization.2.2.2.1 2 [[[1, 2]]] (by decide) (by decide),
   by
     rw [claim8_channel_normalization.2.2.2.2 _ (fun rgb => rgb) (NpArray.dim3 2 [[[1, 2]]]) []
       (claim8_channel_normalization.2.2.2.1 2 [[[1, 2]]] (by decide) (by decide))]
     rfl⟩

/-- C4: a regex match `MM sep SS` found in the normalized text is accepted
exactly when `0 ≤ MM ≤ 99` and `0 ≤ SS ≤ 59`, converting to
`sec = MM*60+SS`; concretely "01:23" is accepted as 83 seconds, "99:59"
as 5999 seconds, "12:75" is matched but rejected (seconds out of range),
"1234" produces no match at all (digit-adjacency guard), and the
full-width "０１：２３" yields the same accepted values as "01:23". -/
theorem claim4_time_extraction :
    (∀ (line : RecLine) (mm ss : Nat),
      (∃ t ∈ extract_all_times [line], t.mm = mm ∧ t.ss = ss ∧ t.sec = mm * 60 + ss)
        ↔ ((mm, ss) ∈ scanTimes none (normalize_for_time line.text)
            ∧ mm ≤ 99 ∧ ss ≤ 59)) ∧
    (extract_all_times [⟨0, "01:23".toList, 1, []⟩]).map (fun t => t.sec) = [83] ∧
    (extract_all_times [⟨0, "99:59".toList, 1, []⟩]).map (fun t => t.sec) = [5999] ∧
    scanTimes none (normalize_for_time "12:75".toList) = [(12, 75)] ∧
    extract_all_times [⟨0, "12:75".toList, 1, []⟩] = [] ∧
    scanTimes none (normalize_for_time "1234".toList) = [] ∧
    (extract_all_times [⟨0, "０１：２３".toList, 1, []⟩]).map
        (fun t => (t.mm, t.ss, t.sec, t.norm))
      = (extract_all_times [⟨0, "01:23".toList, 1, []⟩]).map
        (fun t => (t.mm, t.ss, t.sec, t.norm)) :=
  ⟨extract_single_iff, by decide, by decide, by decide, by decide, by decide, by decide⟩

theorem claim4_time_extraction_witness :
    (1, 23) ∈ scanTimes none (normalize_for_time ("01:23".toList)) ∧ 1 ≤ 99 ∧ 23 ≤ 59 :=
  (claim4_time_extraction.1 ⟨0, "01:23".toList, 1, []⟩ 1 23).mp (by decide)

/-- C6: a recognized line containing any live-context keyword is never
flagged as a replay indicator, even if it also contains a replay keyword;
a line containing a replay keyword and no live keyword is flagged; the
frame-level `is_replay` is the disjunction of the per-line flag over all
lines whose stripped text is non-empty. -/
theorem claim6_replay_rules :
    (∀ text : List Char, (∃ w ∈ live_keywords, containsSub w text = true) →
        is_replay_indicator text = false) ∧
    (∀ text : List Char, (∀ w ∈ live_keywords, containsSub w text = false) →
        (∃ w ∈ replay_keywords, containsSub w text = true) →
        is_replay_indicator text = true) ∧
    (∀ ocr_lines : List RecLine,
        (analyze_texts ocr_lines).is_replay
          = ocr_lines.any (fun l =>
              !(pyStrip l.text).isEmpty && is_replay_indicator (pyStrip l.text))) := by
  refine ⟨?_, ?_, ?_⟩
  · intro text h
    unfold is_replay_indicator
    rw [if_pos]
    rcases h with ⟨w, hw, hc⟩
    exact List.any_eq_true.mpr ⟨w, hw, hc⟩
  · intro text hlive hrep
    unfold is_replay_indicator
    rw [if_neg]
    · rcases hrep with ⟨w, hw, hc⟩
      exact List.any_eq_true.mpr ⟨w, hw, hc⟩
    · intro hc
      rcases List.any_eq_true.mp hc with ⟨w, hw, hcw⟩
      rw [hlive w hw] at hcw
      cases hcw
  · intro L
    have hrep : (analyze_texts L).is_replay = (replayFold L).2 := by
      by_cases h : extract_all_times L = []
      · rw [analyze_texts_empty h]
      · rw [analyze_texts_nonempty h]
    rw [hrep, replayFold_spec]
    rfl

theorem claim6_replay_rules_witness :
    is_replay_indicator "REPLAY直播".toList = false
      ∧ is_replay_indicator "REPLAY".toList = true :=
  ⟨claim6_replay_rules.1 _ ⟨"直播".toList, by decide, by decide⟩,
   claim6_replay_rules.2.1 _ (by decide) ⟨"REPLAY".toList, by decide, by decide⟩⟩

/-- C5: `has_time` is true iff at least one accepted time match exists
across all lines of the frame, and the derived ≥20-minute flag is true iff
the maximum accepted total-seconds value over all accepted matches is at
least 1200; `has_reached_20_min` computes that same flag. -/
theorem claim5_has_time_and_20_min (ocr_lines : List RecLine) :
    ((analyze_texts ocr_lines).has_time = true ↔ ∃ t, t ∈ extract_all_times ocr_lines) ∧
    ((analyze_texts ocr_lines).ge_20_min = true
      ↔ ∃ t ∈ extract_all_times ocr_lines,
          (∀ u ∈ extract_all_times ocr_lines, u.sec ≤ t.sec) ∧ 1200 ≤ t.sec) ∧
    has_reached_20_min ocr_lines = (analyze_texts ocr_lines).ge_20_min := by
  by_cases h : extract_all_times ocr_lines = []
  · rw [analyze_texts_empty h]
    refine ⟨?_, ?_, ?_⟩
    · simp [h]
    · simp [h]
    · simp [has_reached_20_min, h]
  · rw [analyze_texts_nonempty h]
    refine ⟨?_, ?_, ?_⟩
    · simpa using List.exists_mem_of_ne_nil _ h
    · simp only [decide_eq_true_eq]
      constructor
      · intro h20
        obtain ⟨hall, t, ht, hsec⟩ := foldlmax_sec (extract_all_times ocr_lines) h
        refine ⟨t, ht, ?_, ?_⟩
        · intro u hu
          rw [hsec]
          exact hall u hu
        · omega
      · rintro ⟨t, ht, _, h1200⟩
        have hle := foldl_max_le ((extract_all_times ocr_lines).map (fun v => v.sec)) 0
          t.sec (List.mem_map_of_mem (fun v => v.sec) ht)
        omega
    · simp [has_reached_20_min, List.isEmpty_iff, h]

theorem claim5_has_time_and_20_min_witness :
    (analyze_texts [⟨0, "25:00".toList, 1, []⟩]).ge_20_min = true :=
  (claim5_has_time_and_20_min [⟨0, "25:00".toList, 1, []⟩]).2.1.mpr (by decide)

/-- C10: internal consistency of the analysis result: `has_time` iff
`time_texts` is non-empty; `is_replay` iff `replay_indicators` is
non-empty; `ge_20_min` implies `has_time`; when `has_time` holds,
`max_time_sec` is the maximum `sec` over `time_texts` and every entry's
`sec` lies within [0, 5999]; when it does not, `max_time_sec` is `none`
and `ge_20_min` is false. -/
theorem claim10_analysis_consistency (L : List RecLine) :
    ((analyze_texts L).has_time = true ↔ (analyze_texts L).time_texts ≠ []) ∧
    ((analyze_texts L).is_replay = true ↔ (analyze_texts L).replay_indicators ≠ []) ∧
    ((analyze_texts L).ge_20_min = true → (analyze_texts L).has_time = true) ∧
    ((analyze_texts L).has_time = true →
      ∃ m, (analyze_texts L).max_time_sec = some m
        ∧ (∃ t ∈ (analyze_texts L).time_texts, t.sec = m)
        ∧ (∀ t ∈ (analyze_texts L).time_texts, t.sec ≤ m)
        ∧ ∀ t ∈ (analyze_texts L).time_texts, t.sec ≤ 5999) ∧
    ((analyze_texts L).has_time = false →
      (analyze_texts L).max_time_sec = none ∧ (analyze_texts L).ge_20_min = false) := by
  have hrep : (analyze_texts L).is_replay = true
      ↔ (analyze_texts L).replay_indicators ≠ [] := by
    have h1 : (analyze_texts L).is_replay = (replayFold L).2 := by
      by_cases h : extract_all_times L = []
      · rw [analyze_texts_empty h]
      · rw [analyze_texts_nonempty h]
    have h2 : (analyze_texts L).replay_indicators = (replayFold L).1 := by
      by_cases h : extract_all_times L = []
      · rw [analyze_texts_empty h]
      · rw [analyze_texts_nonempty h]
    rw [h1, h2, replayFold_spec]
    show (L.any replayLineFlag = true) ↔ (L.filter replayLineFlag).map mkReplayItem ≠ []
    rw [List.any_eq_true]
    simp only [ne_eq, List.map_eq_nil_iff, List.filter_eq_nil_iff]
    constructor
    · rintro ⟨x, hx, hfx⟩ hno
      exact (hno x hx) hfx
    · intro hno
      by_contra hne
      apply hno
      intro a ha hfa
      exact hne ⟨a, ha, hfa⟩
  by_cases h : extract_all_times L = []
  · rw [analyze_texts_empty h] at hrep ⊢
    refine ⟨by simp, hrep, by simp, by simp, by simp⟩
  · rw [analyze_texts_nonempty h] at hrep ⊢
    refine ⟨by simpa using h, hrep, by simp, ?_, by simp⟩
    intro _
    refine ⟨((extract_all_times L).map (fun t => t.sec)).foldl Nat.max 0, rfl, ?_, ?_, ?_⟩
    · obtain ⟨_, t, ht, hsec⟩ := foldlmax_sec (extract_all_times L) h
      exact ⟨t, ht, hsec⟩
    · obtain ⟨hall, _⟩ := foldlmax_sec (extract_all_times L) h
      intro t ht
      have : (fun v => v.sec) = (fun t : TimeItem => t.sec) := rfl
      exact hall t ht
    · intro t ht
      exact (extract_all_times_bounds L t ht).2.2.2

theorem claim10_analysis_consistency_witness :
    (analyze_texts ([] : List RecLine)).max_time_sec = none
      ∧ (analyze_texts ([] : List RecLine)).ge_20_min = false :=
  (claim10_analysis_consistency []).2.2.2.2 (by decide)

/-- C3: for a byte stream consisting of arbitrary junk containing no start
marker, followed by `N` well-formed non-overlapping marker-delimited
frames, the demux scanning loop emits exactly those `N` frames, in stream
order, for EVERY partition of the stream into read chunks
(chunk-boundary independence). -/
theorem claim3_demux_chunk_independence (junk : List Nat)
    (frames chunks : List (List Nat))
    (hjunk : pairFree 255 216 junk)
    (hframes : ∀ f ∈ frames, isFrame f)
    (hsplit : chunks.flatten = junk ++ frames.flatten) :
    (processChunks chunks).1 = frames := by
  unfold processChunks
  rw [foldl_feedChunk chunks [] [] rfl]
  simp only [List.nil_append]
  rw [hsplit, scanAll_stream frames junk hjunk hframes]

theorem claim3_demux_chunk_independence_witness :
    (processChunks [[9, 255, 217, 255], [216, 1, 255], [217, 255, 216, 255, 216], [255, 217]]).1
      = [[255, 216, 1, 255, 217], [255, 216, 255, 216, 255, 217]] :=
  claim3_demux_chunk_independence [9, 255, 217]
    [[255, 216, 1, 255, 217], [255, 216, 255, 216, 255, 217]]
    [[9, 255, 217, 255], [216, 1, 255], [217, 255, 216, 255, 216], [255, 217]]
    (pairFree_of_lt (by decide))
    (by
      intro f hf
      simp only [List.mem_cons, List.not_mem_nil, or_false] at hf
      rcases hf with rfl | rfl
      · exact ⟨[1], rfl, pairFree_of_lt (by decide)⟩
      · exact ⟨[255, 216], rfl, pairFree_of_lt (by decide)⟩)
    (by decide)
